import Mathlib

/-!
Shallow embedding of the heading-inference pipeline of `src/src/main.py`
(PDF outline extractor).  Pure functions of the source are translated into
executable Lean definitions over `String`, `Nat` (integer font sizes and
physical page indices), `Int` (output page numbers) and `ℚ` (geometry
coordinates; the source uses Python floats, whose rounding plays no role in
any property proved here).  External, effectful collaborators (PyMuPDF line
reading, pdfplumber table detection) appear only through their results,
passed as parameters, exactly as the spec's component boundaries prescribe.
-/

namespace PdfHeadings

/-- Axis-aligned rectangle `(x0, y0, x1, y1)`, as the 4-tuples of the source. -/
structure Rect where
  x0 : ℚ
  y0 : ℚ
  x1 : ℚ
  y1 : ℚ
deriving DecidableEq, Repr

/-- The `Line` container of `main.py`: text, rounded font size, 1-based page,
bounding box. -/
structure Line where
  text : String
  size : Nat
  page : Nat
  bbox : Rect
deriving DecidableEq, Repr

/-- One outline entry, the dict `{'level', 'text', 'page'}` of the source. -/
structure Entry where
  level : String
  text : String
  page : Int
deriving DecidableEq, Repr

/-- The pure-Python fallback `intersects` of `main.py` (closed-rectangle
overlap; the shapely variant agrees on axis-aligned boxes). -/
def intersects (a b : Rect) : Bool :=
  !(decide (a.x1 < b.x0) || decide (a.x0 > b.x1) ||
    decide (a.y1 < b.y0) || decide (a.y0 > b.y1))

/-- Python `\s` on ASCII text: the whitespace class used by `str.split`,
`str.strip` and the regex `\s`. -/
def isPySpace (c : Char) : Bool :=
  c = ' ' || c = '\t' || c = '\n' || c = '\r' || c = '\x0b' || c = '\x0c'

/-- Python `str.strip()`. -/
def pyStrip (s : String) : String :=
  String.mk (((s.data.dropWhile isPySpace).reverse.dropWhile isPySpace).reverse)

/-- Python `str.lower()` (ASCII case, which covers every text these claims
touch). -/
def pyLower (s : String) : String :=
  String.mk (s.data.map Char.toLower)

/-- Splitter for Python `str.split()` (whitespace runs, no empty words):
first argument is the remaining input, second the current word reversed. -/
def wordsAux : List Char → List Char → List (List Char)
  | [], cur => if cur.isEmpty then [] else [cur.reverse]
  | c :: cs, cur =>
    if isPySpace c then
      if cur.isEmpty then wordsAux cs [] else cur.reverse :: wordsAux cs []
    else
      wordsAux cs (c :: cur)

/-- Python `str.split()`. -/
def pySplit (s : String) : List String :=
  (wordsAux s.data []).map String.mk

/-- The expression `txt.split()[0][0].islower()` of the candidate filter
(evaluated in the source only under the guard `len(txt.split()) > 3`,
which makes the indexing safe). -/
def firstWordStartsLower (s : String) : Bool :=
  match wordsAux s.data [] with
  | [] => false
  | w :: _ =>
    match w with
    | [] => false
    | c :: _ => c.isLower

/-- Greedy `\d+`: splits off the maximal digit run. -/
def digitsTake : List Char → List Char × List Char
  | [] => ([], [])
  | c :: cs =>
    if c.isDigit then
      let p := digitsTake cs
      (c :: p.1, p.2)
    else
      ([], c :: cs)

/-- Greedy `(?:\.\d+)*`: splits off the maximal run of units, each a dot
followed by at least one digit.  Because a unit always begins with `'.'` and
every leftover after fewer repetitions starts with `'.'` or a digit (never
whitespace), the greedy parse reaches `\s+` exactly when the backtracking
regex engine does, so this is faithful to `re.match` with `NUM_RE`.
Structural recursion on a fuel argument keeps the definition
kernel-computable; `numUnitsF_fuel` below shows any fuel of at least the
input length gives the same answer, so the fuel is an implementation detail
and not a semantic bound. -/
def numUnitsF : Nat → List Char → List Char × List Char
  | 0, cs => ([], cs)
  | Nat.succ fuel, cs =>
    match cs with
    | [] => ([], [])
    | c :: cs' =>
      if c = '.' then
        if (digitsTake cs').1 = [] then
          ([], c :: cs')
        else
          let p := numUnitsF fuel (digitsTake cs').2
          ('.' :: ((digitsTake cs').1 ++ p.1), p.2)
      else
        ([], c :: cs')

/-- The unit parser at adequate fuel. -/
def numUnits (cs : List Char) : List Char × List Char :=
  numUnitsF cs.length cs

/-- `NUM_RE.match(s)` for `NUM_RE = ^(\d+(?:\.\d+)*)\s+`: returns the
captured group 1 (the digits-and-dots numbering) when the pattern matches a
prefix of `s`, else `none`. -/
def numMatch (s : String) : Option String :=
  let d := (digitsTake s.data).1
  let r := (digitsTake s.data).2
  if d = [] then none
  else
    let u := (numUnits r).1
    let r' := (numUnits r).2
    match r' with
    | [] => none
    | c :: _ => if isPySpace c then some (String.mk (d ++ u)) else none

/-- `COLON_RE.search(s)` for `COLON_RE = .+:$`: a match exists exactly when a
final colon (at the end of the string, or just before one trailing newline)
is immediately preceded by a non-newline character. -/
def colonSearch (s : String) : Bool :=
  match s.data.reverse with
  | ':' :: c :: _ => c != '\n'
  | '\n' :: ':' :: c :: _ => c != '\n'
  | _ => false

/-! ### Counter machinery

`collections.Counter` iterates keys in first-insertion order, and
`most_common` sorts the key/count pairs by count descending with a stable
sort, so ties keep first-insertion order.  `firstOccs` reproduces the key
order, `sortCountDesc` the stable descending-count sort. -/

/-- Keys of a multiset in first-occurrence order, threading the set of keys
already seen. -/
def firstOccsAux : List Nat → List Nat → List Nat
  | [], _ => []
  | x :: xs, seen =>
    if x ∈ seen then firstOccsAux xs seen else x :: firstOccsAux xs (x :: seen)

/-- Keys of a multiset in first-occurrence order (`Counter` key order). -/
def firstOccs (l : List Nat) : List Nat :=
  firstOccsAux l []

/-- Stable insertion for the descending-count sort: an element is placed
before the first element of strictly smaller or equal count, keeping
earlier-inserted keys ahead on ties. -/
def insertCD (pop : List Nat) (x : Nat) : List Nat → List Nat
  | [] => [x]
  | y :: ys => if pop.count y ≤ pop.count x then x :: y :: ys else y :: insertCD pop x ys

/-- Stable sort by descending count over population `pop`
(`Counter(pop).most_common()` key order). -/
def sortCountDesc (pop : List Nat) : List Nat → List Nat
  | [] => []
  | x :: xs => insertCD pop x (sortCountDesc pop xs)

/-- `[k for k, _ in Counter(l).most_common()]`. -/
def mostCommonKeys (l : List Nat) : List Nat :=
  sortCountDesc l (firstOccs l)

/-- Insertion for the plain descending sort on values. -/
def insertVD (x : Nat) : List Nat → List Nat
  | [] => [x]
  | y :: ys => if y ≤ x then x :: y :: ys else y :: insertVD x ys

/-- `list.sort(reverse=True)` on distinct sizes. -/
def sortValDesc : List Nat → List Nat
  | [] => []
  | x :: xs => insertVD x (sortValDesc xs)

/-! ### Heading classifier (`detect_outline`, steps before the merge) -/

/-- `Counter(l.size for l in lines).most_common(1)[0][0]`: the body size.
The `headD 0` default is unreachable because `detect_outline` returns before
this point on an empty document. -/
def bodySize (lines : List Line) : Nat :=
  (mostCommonKeys (lines.map (fun l => l.size))).headD 0

/-- The sizes (with multiplicity, in document order) of lines whose size is
at least `1.15 *` body size — the generator inside the `head_sizes`
`Counter` of the source.  `l.size >= body * 1.15` on integer sizes is the
exact rational test `23 * body ≤ 20 * size`; Python evaluates the threshold
in binary floating point, which agrees with the exact value on every
integer comparison (the float error is far below the 1/20 grid of the
threshold). -/
def qualSizes (lines : List Line) : List Nat :=
  (lines.filter (fun l => decide (23 * bodySize lines ≤ 20 * l.size))).map
    (fun l => l.size)

/-- `head_sizes`: up to 4 distinct qualifying sizes by descending frequency,
re-sorted by descending value. -/
def headSizes (lines : List Line) : List Nat :=
  sortValDesc ((mostCommonKeys (qualSizes lines)).take 4)

/-- Lookup in the dict `{s: f'H{idx+1}' for idx, s in enumerate(head_sizes)}`,
entered with running index `i`; `head_sizes` is duplicate-free, so taking
the first hit coincides with the dict. -/
def lvlAux : List Nat → Nat → Nat → Option String
  | [], _, _ => none
  | h :: t, s, i => if h = s then some ("H" ++ toString i) else lvlAux t s (i + 1)

/-- `size2lvl.get(s)`. -/
def sizeLvl (hs : List Nat) (s : Nat) : Option String :=
  lvlAux hs s 1

/-- The level chain of the source: numbering pattern first
(`H{min(dots+1, 4)}` on the captured group), then the colon pattern (`H3`),
then the size-to-level dict with default `H3`. -/
def levelOf (hs : List Nat) (sz : Nat) (txt : String) : String :=
  match numMatch txt with
  | some g => "H" ++ toString (min (g.data.count '.' + 1) 4)
  | none =>
    if colonSearch txt then "H3" else (sizeLvl hs sz).getD "H3"

/-- The candidate filter of the classifier loop: the three `continue` guards
followed by the qualification test.  `ln.size < body * 1.05` on integer
sizes is the exact rational test `20 * size < 21 * body` (see `qualSizes`
on float agreement). -/
def isCandidate (body : Nat) (hs : List Nat) (ln : Line) : Bool :=
  let txt := pyStrip ln.text
  if decide (20 * ln.size < 21 * body) then false
  else if txt.length > 150 && (numMatch txt).isNone then false
  else if decide ((pySplit txt).length > 3) && firstWordStartsLower txt &&
      (numMatch txt).isNone then false
  else hs.contains ln.size || (numMatch txt).isSome || colonSearch txt

/-- `cands` of the source. -/
def candidates (lines : List Line) : List Line :=
  lines.filter (isCandidate (bodySize lines) (headSizes lines))

/-! ### Merger, deduplicator, page renumbering -/

/-- The merge-and-level `while` loop of `detect_outline`: a single
look-ahead merges the next candidate when it sits on the same page and has
at most 2 words, after which the scan resumes past both. -/
def buildOutline (hs : List Nat) : List Line → List Entry
  | [] => []
  | [ln] => [⟨levelOf hs ln.size (pyStrip ln.text), pyStrip ln.text, (ln.page : Int)⟩]
  | ln :: next :: rest =>
    if next.page = ln.page ∧ (pySplit next.text).length ≤ 2 then
      let txt := pyStrip ln.text ++ " " ++ pyStrip next.text
      ⟨levelOf hs ln.size txt, txt, (ln.page : Int)⟩ :: buildOutline hs rest
    else
      ⟨levelOf hs ln.size (pyStrip ln.text), pyStrip ln.text, (ln.page : Int)⟩ ::
        buildOutline hs (next :: rest)

/-- The dedup key `(h['text'].lower(), h['level'])`. -/
def entryKey (e : Entry) : String × String :=
  (pyLower e.text, e.level)

/-- The final dedup loop with its `seen` set. -/
def dedupEntries : List Entry → List (String × String) → List Entry
  | [], _ => []
  | h :: t, seen =>
    if entryKey h ∈ seen then dedupEntries t seen
    else h :: dedupEntries t (entryKey h :: seen)

/-- Distinct pages in first-occurrence order (also the iteration order of
the `per_page` dict in `clean`). -/
def pagesInOrder (lines : List Line) : List Nat :=
  firstOccs (lines.map (fun l => l.page))

/-- The outline as built before deduplication. -/
def preOutline (lines : List Line) : List Entry :=
  buildOutline (headSizes lines) (candidates lines)

/-- `detect_outline` of the source: empty guard, the two-page fully-numbered
escape hatch, then classify, merge and dedup. -/
def detect_outline (lines : List Line) : List Entry :=
  if lines.isEmpty then []
  else if (pagesInOrder lines).length ≤ 2 ∧
      lines.all (fun l => (numMatch l.text).isSome) then []
  else dedupEntries (preOutline lines) []

/-- Smallest page number of a non-empty outline (`min(o['page'] ...)`). -/
def minPage : List Entry → Int
  | [] => 1
  | e :: es => es.foldl (fun a x => min a x.page) e.page

/-- `logical_shift` of the source, as a pure function: no shift when the
smallest page is 1, else shift by `-(first - 2)`; every new page is clamped
from below by 1. -/
def logical_shift (outl : List Entry) : List Entry :=
  if outl.isEmpty then outl
  else
    let first := minPage outl
    let shift : Int := if first = 1 then 0 else -(first - 2)
    outl.map (fun o => { o with page := max 1 (o.page + shift) })

/-! ### Line cleaner (`clean`) -/

/-- Decides `p * a < q * b` over ℚ by integer cross-multiplication (both
denominators are positive), so the test is kernel-computable;
`ratScaledLt_iff` relates it back to the rational inequality. -/
def ratScaledLt (p q : Nat) (a b : ℚ) : Bool :=
  decide ((p : Int) * a.num * b.den < (q : Int) * b.num * a.den)

/-- Python `round(x, 1)` as an integer count of tenths:
`round1 x = ⌊10x + 1/2⌋`, computed by floor division on the numerator and
denominator.  It is used only as a dictionary key, so only its equality
matters; the divergence from Python's round-half-to-even (which acts on
binary floats) sits exactly on `.05` coordinate ties, which no claim
exercises. -/
def round1 (x : ℚ) : Int :=
  (20 * x.num + x.den).fdiv (2 * x.den)

/-- The global dedup key of `clean`:
`(ln.text.lower().strip(), round(ln.bbox[0], 1))`. -/
def lineKey (ln : Line) : String × Int :=
  (pyStrip (pyLower ln.text), round1 ln.bbox.x0)

/-- The `seen`-independent part of the `continue` cascade in `clean`, for a
page of measured height `h` and table boxes `tbs`:
text at most 150 characters and not a bullet, not in the top band
(`bbox[1] < h*0.10`, i.e. `10*y0 < 1*h`), not in the bottom band
(`bbox[3] > h*(1-0.10)`, i.e. `9*h < 10*y1`), and intersecting no table. -/
def keepBase (h : ℚ) (tbs : List Rect) (ln : Line) : Bool :=
  !(decide (ln.text.length > 150) || ln.text == "•") &&
  !(ratScaledLt 10 1 ln.bbox.y0 h || ratScaledLt 9 10 h ln.bbox.y1) &&
  !(tbs.any (fun tb => intersects ln.bbox tb))

/-- One full iteration test of the `clean` inner loop: the base checks plus
the global key dedup. -/
def keepLine (h : ℚ) (tbs : List Rect) (seen : List (String × Int)) (ln : Line) : Bool :=
  keepBase h tbs ln && !(decide (lineKey ln ∈ seen))

/-- The inner loop of `clean` over one page's lines, threading the global
`seen` key set. -/
def cleanLines (h : ℚ) (tbs : List Rect) :
    List Line → List (String × Int) → List Line × List (String × Int)
  | [], seen => ([], seen)
  | ln :: rest, seen =>
    if keepLine h tbs seen ln then
      let p := cleanLines h tbs rest (lineKey ln :: seen)
      (ln :: p.1, p.2)
    else
      cleanLines h tbs rest seen

/-- The lines of one page, in document order (`per_page[pg]`). -/
def pageLines (lines : List Line) (p : Nat) : List Line :=
  lines.filter (fun l => l.page = p)

/-- `max(l.bbox[3] for l in ln_list)`; the `0` default is unreachable since
`clean` only measures non-empty page groups. -/
def maxBottom : List Line → ℚ
  | [] => 0
  | l :: ls => ls.foldl (fun a x => max a x.bbox.y1) l.bbox.y1

/-- The outer loop of `clean` over the pages in first-occurrence order:
per page, measure the height, pick the page's table boxes
(`tables[pg-1] if pg-1 < len(tables) else []`), and run the inner loop. -/
def cleanPages (lines : List Line) (tables : List (List Rect)) :
    List Nat → List (String × Int) → List Line
  | [], _ => []
  | p :: ps, seen =>
    let ls := pageLines lines p
    let pr := cleanLines (maxBottom ls) (tables.getD (p - 1) []) ls seen
    pr.1 ++ cleanPages lines tables ps pr.2

/-- `clean` of the source.  The table boxes are a parameter: in the source
they are the value of `table_bboxes(pdf, max page)`, an external call whose
behaviour is modelled separately (`table_bboxes` below). -/
def clean (lines : List Line) (tables : List (List Rect)) : List Line :=
  if lines.isEmpty then [] else cleanPages lines tables (pagesInOrder lines) []

/-! ### Table mask provider (`table_bboxes`)

The pdfplumber interaction is modelled by its observable behaviour: opening
the PDF either fails or yields a page sequence, and each page's
`find_tables` either raises or yields that page's table boxes (with
`find_tables() or []` already folding a falsy result into the empty list).
The single `except` of the source catches a failure anywhere inside the
`with` block. -/

/-- The page loop of `table_bboxes`: `boxes[i] = [t.bbox for t in ...]` with
`break` at `n` pages; a page failure aborts the loop, leaving `boxes` as
accumulated so far (the `except Exception: pass`). -/
def tableBoxesGo (n : Nat) (boxes : List (List Rect)) :
    List (Except Unit (List Rect)) → Nat → List (List Rect)
  | [], _ => boxes
  | pg :: rest, i =>
    if n ≤ i then boxes
    else
      match pg with
      | Except.error _ => boxes
      | Except.ok tbs => tableBoxesGo n (boxes.set i tbs) rest (i + 1)

/-- `table_bboxes` of the source: start from `n_pages` empty lists; an
opening failure returns them untouched; otherwise fill page by page until
the page list, the page budget, or a page failure ends the loop. -/
def table_bboxes (provider : Except Unit (List (Except Unit (List Rect))))
    (n_pages : Nat) : List (List Rect) :=
  match provider with
  | Except.error _ => List.replicate n_pages []
  | Except.ok pages => tableBoxesGo n_pages (List.replicate n_pages []) pages 0

/-! ### Definitions written from the spec's words, for comparison -/

/-- Modelled from the spec (§4.4 dedup rule): keep only the first
occurrence of each `(text.lowercased(), level)` pair, in original order —
stated as the direct filter recursion, to be compared with the
`seen`-set loop `dedupEntries` of the source. -/
def specDedup : List Entry → List Entry
  | [] => []
  | h :: t => h :: specDedup (t.filter (fun e => !(decide (entryKey e = entryKey h))))
termination_by l => l.length
decreasing_by
  exact Nat.lt_succ_of_le (List.length_filter_le _ _)

/-- The renumbering of `logical_shift` with the clamp `max 1` removed,
for the refinement comparison of claim C10. -/
def logicalShiftNoClamp (outl : List Entry) : List Entry :=
  if outl.isEmpty then outl
  else
    let first := minPage outl
    let shift : Int := if first = 1 then 0 else -(first - 2)
    outl.map (fun o => { o with page := o.page + shift })

/-! ### Concrete example documents

Small synthetic inputs used by the claim theorems, counterexamples and
witnesses.  Sizes 12/20/24/30 give body size 12, so 20, 24 and 30 qualify as
heading sizes (at least 1.15 times the body) and 12 stays below the 1.05
candidate cut. -/

def zeroRect : Rect := ⟨0, 0, 0, 0⟩

def exBody1 : Line := ⟨"body one", 12, 1, zeroRect⟩

def exBody2 : Line := ⟨"body two", 12, 1, zeroRect⟩

def exC1dot : List Line :=
  [⟨"1. Scope", 12, 1, zeroRect⟩, ⟨"2. Definitions", 24, 1, zeroRect⟩]

def exC1num : List Line :=
  [⟨"1 Scope", 12, 1, zeroRect⟩, ⟨"2 Definitions", 24, 1, zeroRect⟩]

def exC2intro : List Line := [exBody1, exBody2, ⟨"1. Introduction", 20, 1, zeroRect⟩]

def exC2details : List Line := [exBody1, exBody2, ⟨"2.3 Details", 20, 1, zeroRect⟩]

def exC2sub : List Line := [exBody1, exBody2, ⟨"2.3.4 Sub", 20, 1, zeroRect⟩]

def exC2colon : List Line := [exBody1, exBody2, ⟨":", 20, 1, zeroRect⟩]

def exC4 : List Line :=
  [exBody1, exBody2, ⟨"Chapter", 20, 1, zeroRect⟩, ⟨"One", 20, 1, zeroRect⟩]

def exFooter : Line := ⟨"footer", 10, 1, ⟨0, 95, 50, 100⟩⟩

def exB1 : Line := ⟨"body one", 12, 1, ⟨0, 40, 50, 45⟩⟩

def exB2 : Line := ⟨"body two", 12, 1, ⟨0, 50, 50, 55⟩⟩

def exTable : Line := ⟨"Table Header", 30, 1, ⟨10, 60, 40, 65⟩⟩

def exHeading : Line := ⟨"Real Heading", 20, 1, ⟨0, 20, 50, 25⟩⟩

def exC6lines : List Line := [exFooter, exB1, exB2, exTable, exHeading]

def exTableRect : Rect := ⟨5, 58, 45, 70⟩

def exC6tables : List (List Rect) := [[exTableRect]]

def exW : Line := ⟨"x", 12, 1, ⟨0, 0, 10, 20⟩⟩

def exShiftTwo : List Entry := [⟨"H1", "A", 3⟩, ⟨"H2", "B", 5⟩]

def exShiftOne : List Entry := [⟨"H1", "A", 3⟩]

def exDedup : List Entry := [⟨"H1", "Alpha", 1⟩, ⟨"H1", "alpha", 2⟩, ⟨"H2", "Alpha", 3⟩]

/-! ## Lemmas and claim theorems -/

theorem digitsTake_snd_length (cs : List Char) : (digitsTake cs).2.length ≤ cs.length := by
  induction cs with
  | nil => simp [digitsTake]
  | cons c cs ih =>
    by_cases h : c.isDigit
    · simpa [digitsTake, h] using Nat.le_succ_of_le ih
    · simp [digitsTake, h]

theorem numUnitsF_irrel :
    ∀ (n : Nat) (cs : List Char) (f1 f2 : Nat), cs.length ≤ n →
      cs.length ≤ f1 → cs.length ≤ f2 → numUnitsF f1 cs = numUnitsF f2 cs := by
  intro n
  induction n with
  | zero =>
    intro cs f1 f2 hn _ _
    have : cs = [] := List.length_eq_zero.mp (Nat.le_zero.mp hn)
    subst this
    cases f1 <;> cases f2 <;> rfl
  | succ n ih =>
    intro cs f1 f2 hn h1 h2
    match cs with
    | [] => cases f1 <;> cases f2 <;> rfl
    | c :: cs' =>
      simp only [List.length_cons] at hn h1 h2
      match f1, f2 with
      | f1 + 1, f2 + 1 =>
        by_cases hc : c = '.'
        · by_cases hd : (digitsTake cs').1 = []
          · simp [numUnitsF, hc, hd]
          · have hr : (digitsTake cs').2.length ≤ cs'.length :=
              digitsTake_snd_length cs'
            have := ih (digitsTake cs').2 f1 f2 (by omega) (by omega) (by omega)
            simp [numUnitsF, hc, hd, this]
        · simp [numUnitsF, hc]

/-- Any fuel of at least the input length computes `numUnits`. -/
theorem numUnitsF_fuel (fuel : Nat) (cs : List Char) (h : cs.length ≤ fuel) :
    numUnitsF fuel cs = numUnits cs :=
  numUnitsF_irrel cs.length cs fuel cs.length (Nat.le_refl _) h (Nat.le_refl _)

theorem ratScaledLt_iff (p q : Nat) (a b : ℚ) :
    ratScaledLt p q a b = true ↔ (p : ℚ) * a < (q : ℚ) * b := by
  rw [ratScaledLt, decide_eq_true_iff]
  have ha : (0 : ℚ) < (a.den : ℚ) := by exact_mod_cast a.pos
  have hb : (0 : ℚ) < (b.den : ℚ) := by exact_mod_cast b.pos
  conv_rhs => rw [← Rat.num_div_den a, ← Rat.num_div_den b]
  rw [← mul_div_assoc, ← mul_div_assoc, div_lt_div_iff₀ ha hb]
  constructor <;> intro h <;> exact_mod_cast h

/-! ### Page-minimum helpers -/

theorem foldlMin_le_init (xs : List Entry) : ∀ a : Int,
    xs.foldl (fun x e => min x e.page) a ≤ a := by
  induction xs with
  | nil => intro a; simp
  | cons y ys ih =>
    intro a
    simp only [List.foldl_cons]
    exact le_trans (ih _) (min_le_left _ _)

theorem foldlMin_le_mem (xs : List Entry) : ∀ (a : Int) (e : Entry), e ∈ xs →
    xs.foldl (fun x e => min x e.page) a ≤ e.page := by
  induction xs with
  | nil => intro a e he; cases he
  | cons y ys ih =>
    intro a e he
    simp only [List.foldl_cons]
    rcases List.mem_cons.mp he with h | h
    · subst h; exact le_trans (foldlMin_le_init ys _) (min_le_right _ _)
    · exact ih _ e h

theorem le_foldlMin (xs : List Entry) : ∀ (a c : Int), c ≤ a →
    (∀ e ∈ xs, c ≤ e.page) → c ≤ xs.foldl (fun x e => min x e.page) a := by
  induction xs with
  | nil => intro a c hc _; simpa using hc
  | cons y ys ih =>
    intro a c hc h
    simp only [List.foldl_cons]
    exact ih _ _ (le_min hc (h y (List.mem_cons_self _ _)))
      (fun e he => h e (List.mem_cons_of_mem _ he))

theorem minPage_le (outl : List Entry) (e : Entry) (he : e ∈ outl) :
    minPage outl ≤ e.page := by
  cases outl with
  | nil => cases he
  | cons y ys =>
    rcases List.mem_cons.mp he with h | h
    · subst h; exact foldlMin_le_init ys _
    · exact foldlMin_le_mem ys _ e h

theorem one_le_minPage (outl : List Entry) (hne : outl ≠ [])
    (h : ∀ e ∈ outl, 1 ≤ e.page) : 1 ≤ minPage outl := by
  cases outl with
  | nil => exact absurd rfl hne
  | cons y ys =>
    exact le_foldlMin ys _ _ (h y (List.mem_cons_self _ _))
      (fun e he => h e (List.mem_cons_of_mem _ he))

/-! ### Deduplication helpers -/

theorem dedupEntries_sublist : ∀ (l : List Entry) (seen : List (String × String)),
    (dedupEntries l seen).Sublist l := by
  intro l
  induction l with
  | nil => intro seen; simp [dedupEntries]
  | cons h t ih =>
    intro seen
    by_cases hk : entryKey h ∈ seen
    · rw [dedupEntries, if_pos hk]
      exact (ih seen).trans (List.sublist_cons_self h t)
    · rw [dedupEntries, if_neg hk]
      exact (ih _).cons₂ h

theorem dedupEntries_notSeen : ∀ (l : List Entry) (seen : List (String × String))
    (e : Entry), e ∈ dedupEntries l seen → entryKey e ∉ seen := by
  intro l
  induction l with
  | nil => intro seen e he; simp [dedupEntries] at he
  | cons h t ih =>
    intro seen e he
    by_cases hk : entryKey h ∈ seen
    · rw [dedupEntries, if_pos hk] at he
      exact ih seen e he
    · rw [dedupEntries, if_neg hk] at he
      rcases List.mem_cons.mp he with rfl | hmem
      · exact hk
      · intro hs
        exact ih _ e hmem (List.mem_cons_of_mem _ hs)

theorem dedupEntries_pairwise : ∀ (l : List Entry) (seen : List (String × String)),
    (dedupEntries l seen).Pairwise (fun a b => entryKey a ≠ entryKey b) := by
  intro l
  induction l with
  | nil => intro seen; simp [dedupEntries]
  | cons h t ih =>
    intro seen
    by_cases hk : entryKey h ∈ seen
    · rw [dedupEntries, if_pos hk]
      exact ih seen
    · rw [dedupEntries, if_neg hk]
      refine List.Pairwise.cons (fun e he heq => ?_) (ih _)
      exact dedupEntries_notSeen t _ e he (by rw [← heq]; exact List.mem_cons_self _ _)

theorem dedupEntries_covers : ∀ (l : List Entry) (seen : List (String × String))
    (e : Entry), e ∈ l → entryKey e ∉ seen →
    ∃ e' ∈ dedupEntries l seen, entryKey e' = entryKey e := by
  intro l
  induction l with
  | nil => intro seen e he; cases he
  | cons h t ih =>
    intro seen e he hns
    by_cases hk : entryKey h ∈ seen
    · rw [dedupEntries, if_pos hk]
      rcases List.mem_cons.mp he with rfl | hmem
      · exact absurd hk hns
      · exact ih seen e hmem hns
    · rw [dedupEntries, if_neg hk]
      by_cases heq : entryKey e = entryKey h
      · exact ⟨h, List.mem_cons_self _ _, heq.symm⟩
      · rcases List.mem_cons.mp he with rfl | hmem
        · exact absurd rfl heq
        · have : entryKey e ∉ entryKey h :: seen := by
            intro hc
            rcases List.mem_cons.mp hc with hc | hc
            · exact heq hc
            · exact hns hc
          obtain ⟨e', he', hk'⟩ := ih _ e hmem this
          exact ⟨e', List.mem_cons_of_mem _ he', hk'⟩

theorem dedupEntries_eq_specDedup : ∀ (l : List Entry) (seen : List (String × String)),
    dedupEntries l seen =
      specDedup (l.filter (fun e => !(decide (entryKey e ∈ seen)))) := by
  intro l
  induction l with
  | nil => intro seen; simp [dedupEntries, specDedup]
  | cons h t ih =>
    intro seen
    by_cases hk : entryKey h ∈ seen
    · rw [dedupEntries, if_pos hk, List.filter_cons_of_neg (by simpa using hk)]
      exact ih seen
    · rw [dedupEntries, if_neg hk, List.filter_cons_of_pos (by simpa using hk)]
      rw [specDedup, ih (entryKey h :: seen), List.filter_filter]
      have hf : List.filter (fun e => !decide (entryKey e ∈ entryKey h :: seen)) t =
          List.filter (fun a =>
            !decide (entryKey a = entryKey h) && !decide (entryKey a ∈ seen)) t := by
        apply List.filter_congr
        intro e _
        by_cases h1 : entryKey e = entryKey h <;>
          by_cases h2 : entryKey e ∈ seen <;>
          simp [h1, h2, List.mem_cons]
      rw [hf]

/-! ### Merge-loop helpers -/

theorem buildOutline_mem_aux (hs : List Nat) : ∀ (n : Nat) (l : List Line)
    (_ : l.length ≤ n) (e : Entry), e ∈ buildOutline hs l →
    ∃ ln ∈ l, e.level = levelOf hs ln.size e.text ∧ e.page = (ln.page : Int) := by
  intro n
  induction n with
  | zero =>
    intro l hl e he
    match l with
    | [] => simp [buildOutline] at he
  | succ n ih =>
    intro l hl e he
    match l with
    | [] => simp [buildOutline] at he
    | [ln] =>
      rw [buildOutline] at he
      rcases List.mem_singleton.mp he with rfl
      exact ⟨ln, List.mem_singleton_self _, rfl, rfl⟩
    | ln :: next :: rest =>
      rw [buildOutline] at he
      by_cases hcond : next.page = ln.page ∧ (pySplit next.text).length ≤ 2
      · rw [if_pos hcond] at he
        rcases List.mem_cons.mp he with rfl | hmem
        · exact ⟨ln, List.mem_cons_self _ _, rfl, rfl⟩
        · simp only [List.length_cons] at hl
          obtain ⟨ln', h1, h2⟩ := ih rest (by omega) e hmem
          exact ⟨ln', List.mem_cons_of_mem _ (List.mem_cons_of_mem _ h1), h2⟩
      · rw [if_neg hcond] at he
        rcases List.mem_cons.mp he with rfl | hmem
        · exact ⟨ln, List.mem_cons_self _ _, rfl, rfl⟩
        · simp only [List.length_cons] at hl
          obtain ⟨ln', h1, h2⟩ := ih (next :: rest) (by simpa using (by omega)) e hmem
          exact ⟨ln', List.mem_cons_of_mem _ h1, h2⟩

/-- Every entry the merge loop emits carries the level computed by the
source's level chain on the entry's own (possibly merged) text and the size
of the candidate that opened the entry, and that candidate's page. -/
theorem buildOutline_mem (hs : List Nat) (l : List Line) (e : Entry)
    (he : e ∈ buildOutline hs l) :
    ∃ ln ∈ l, e.level = levelOf hs ln.size e.text ∧ e.page = (ln.page : Int) :=
  buildOutline_mem_aux hs l.length l (Nat.le_refl _) e he

/-! ### Cleaner helpers -/

theorem cleanLines_mem (h : ℚ) (tbs : List Rect) :
    ∀ (ls : List Line) (seen : List (String × Int)) (x : Line),
    x ∈ (cleanLines h tbs ls seen).1 → x ∈ ls ∧ keepBase h tbs x = true := by
  intro ls
  induction ls with
  | nil => intro seen x hx; simp [cleanLines] at hx
  | cons ln rest ih =>
    intro seen x hx
    rw [cleanLines] at hx
    by_cases hk : keepLine h tbs seen ln = true
    · rw [if_pos hk] at hx
      rcases List.mem_cons.mp hx with rfl | hmem
      · refine ⟨List.mem_cons_self _ _, ?_⟩
        rw [keepLine, Bool.and_eq_true] at hk
        exact hk.1
      · obtain ⟨h1, h2⟩ := ih _ x hmem
        exact ⟨List.mem_cons_of_mem _ h1, h2⟩
    · rw [if_neg hk] at hx
      obtain ⟨h1, h2⟩ := ih _ x hx
      exact ⟨List.mem_cons_of_mem _ h1, h2⟩

theorem cleanPages_mem (lines : List Line) (tables : List (List Rect)) :
    ∀ (ps : List Nat) (seen : List (String × Int)) (x : Line),
    x ∈ cleanPages lines tables ps seen →
    ∃ p ∈ ps, x ∈ pageLines lines p ∧
      keepBase (maxBottom (pageLines lines p)) (tables.getD (p - 1) []) x = true := by
  intro ps
  induction ps with
  | nil => intro seen x hx; simp [cleanPages] at hx
  | cons p ps' ih =>
    intro seen x hx
    rw [cleanPages] at hx
    rcases List.mem_append.mp hx with hx | hx
    · obtain ⟨h1, h2⟩ := cleanLines_mem _ _ _ _ x hx
      exact ⟨p, List.mem_cons_self _ _, h1, h2⟩
    · obtain ⟨p', hp', h1, h2⟩ := ih _ x hx
      exact ⟨p', List.mem_cons_of_mem _ hp', h1, h2⟩

/-- Membership in the cleaner's output forces the geometric keep conditions
on the member's own page group. -/
theorem clean_mem (lines : List Line) (tables : List (List Rect)) (x : Line)
    (hx : x ∈ clean lines tables) :
    x ∈ lines ∧
      keepBase (maxBottom (pageLines lines x.page)) (tables.getD (x.page - 1) [])
        x = true := by
  rw [clean] at hx
  by_cases he : lines.isEmpty
  · rw [if_pos he] at hx
    cases hx
  · rw [if_neg he] at hx
    obtain ⟨p, _, h1, h2⟩ := cleanPages_mem lines tables _ _ x hx
    have hxl := List.mem_filter.mp h1
    have hpage : x.page = p := by simpa using hxl.2
    subst hpage
    exact ⟨hxl.1, h2⟩

/-! ### Counter and sorting helpers -/

theorem insertCD_perm (pop : List Nat) (x : Nat) :
    ∀ l : List Nat, List.Perm (insertCD pop x l) (x :: l) := by
  intro l
  induction l with
  | nil => exact List.Perm.refl _
  | cons y ys ih =>
    rw [insertCD]
    by_cases hc : pop.count y ≤ pop.count x
    · rw [if_pos hc]
    · rw [if_neg hc]
      exact (ih.cons y).trans (List.Perm.swap x y ys)

theorem insertCD_sorted (pop : List Nat) (x : Nat) :
    ∀ l : List Nat, l.Pairwise (fun a b => pop.count b ≤ pop.count a) →
    (insertCD pop x l).Pairwise (fun a b => pop.count b ≤ pop.count a) := by
  intro l
  induction l with
  | nil => intro _; simp [insertCD]
  | cons y ys ih =>
    intro hl
    rw [insertCD]
    by_cases hc : pop.count y ≤ pop.count x
    · rw [if_pos hc]
      refine List.Pairwise.cons (fun b hb => ?_) hl
      rcases List.mem_cons.mp hb with rfl | hb
      · exact hc
      · exact le_trans (List.rel_of_pairwise_cons hl hb) hc
    · rw [if_neg hc]
      refine List.Pairwise.cons (fun b hb => ?_) (ih (List.Pairwise.of_cons hl))
      have : b ∈ x :: ys := (insertCD_perm pop x ys).mem_iff.mp hb
      rcases List.mem_cons.mp this with rfl | hb'
      · exact le_of_not_le hc
      · exact List.rel_of_pairwise_cons hl hb'

theorem sortCountDesc_perm (pop : List Nat) : ∀ l : List Nat,
    List.Perm (sortCountDesc pop l) l := by
  intro l
  induction l with
  | nil => exact List.Perm.refl _
  | cons x xs ih =>
    rw [sortCountDesc]
    exact (insertCD_perm pop x _).trans (ih.cons x)

theorem sortCountDesc_sorted (pop : List Nat) : ∀ l : List Nat,
    (sortCountDesc pop l).Pairwise (fun a b => pop.count b ≤ pop.count a) := by
  intro l
  induction l with
  | nil => simp [sortCountDesc]
  | cons x xs ih =>
    rw [sortCountDesc]
    exact insertCD_sorted pop x _ ih

theorem insertVD_perm (x : Nat) :
    ∀ l : List Nat, List.Perm (insertVD x l) (x :: l) := by
  intro l
  induction l with
  | nil => exact List.Perm.refl _
  | cons y ys ih =>
    rw [insertVD]
    by_cases hc : y ≤ x
    · rw [if_pos hc]
    · rw [if_neg hc]
      exact (ih.cons y).trans (List.Perm.swap x y ys)

theorem insertVD_sorted (x : Nat) : ∀ l : List Nat,
    l.Pairwise (fun a b => b ≤ a) →
    (insertVD x l).Pairwise (fun a b => b ≤ a) := by
  intro l
  induction l with
  | nil => intro _; simp [insertVD]
  | cons y ys ih =>
    intro hl
    rw [insertVD]
    by_cases hc : y ≤ x
    · rw [if_pos hc]
      refine List.Pairwise.cons (fun b hb => ?_) hl
      rcases List.mem_cons.mp hb with rfl | hb
      · exact hc
      · exact le_trans (List.rel_of_pairwise_cons hl hb) hc
    · rw [if_neg hc]
      refine List.Pairwise.cons (fun b hb => ?_) (ih (List.Pairwise.of_cons hl))
      have : b ∈ x :: ys := (insertVD_perm x ys).mem_iff.mp hb
      rcases List.mem_cons.mp this with rfl | hb'
      · exact le_of_not_le hc
      · exact List.rel_of_pairwise_cons hl hb'

theorem sortValDesc_perm : ∀ l : List Nat, List.Perm (sortValDesc l) l := by
  intro l
  induction l with
  | nil => exact List.Perm.refl _
  | cons x xs ih =>
    rw [sortValDesc]
    exact (insertVD_perm x _).trans (ih.cons x)

theorem sortValDesc_sorted : ∀ l : List Nat,
    (sortValDesc l).Pairwise (fun a b => b ≤ a) := by
  intro l
  induction l with
  | nil => simp [sortValDesc]
  | cons x xs ih =>
    rw [sortValDesc]
    exact insertVD_sorted x _ ih

theorem firstOccsAux_mem : ∀ (l seen : List Nat) (x : Nat),
    x ∈ firstOccsAux l seen ↔ x ∈ l ∧ x ∉ seen := by
  intro l
  induction l with
  | nil => intro seen x; simp [firstOccsAux]
  | cons y ys ih =>
    intro seen x
    rw [firstOccsAux]
    by_cases hy : y ∈ seen
    · rw [if_pos hy, ih]
      constructor
      · rintro ⟨h1, h2⟩
        exact ⟨List.mem_cons_of_mem _ h1, h2⟩
      · rintro ⟨h1, h2⟩
        rcases List.mem_cons.mp h1 with rfl | h1
        · exact absurd hy h2
        · exact ⟨h1, h2⟩
    · rw [if_neg hy]
      constructor
      · intro hx
        rcases List.mem_cons.mp hx with rfl | hx
        · exact ⟨List.mem_cons_self _ _, hy⟩
        · obtain ⟨h1, h2⟩ := (ih _ x).mp hx
          exact ⟨List.mem_cons_of_mem _ h1,
            fun hc => h2 (List.mem_cons_of_mem _ hc)⟩
      · rintro ⟨h1, h2⟩
        rcases List.mem_cons.mp h1 with rfl | h1
        · exact List.mem_cons_self _ _
        · by_cases hxy : x = y
          · subst hxy; exact List.mem_cons_self _ _
          · refine List.mem_cons_of_mem _ ((ih _ x).mpr ⟨h1, ?_⟩)
            intro hc
            rcases List.mem_cons.mp hc with hc | hc
            · exact hxy hc
            · exact h2 hc

theorem firstOccsAux_nodup : ∀ (l seen : List Nat), (firstOccsAux l seen).Nodup := by
  intro l
  induction l with
  | nil => intro seen; simp [firstOccsAux]
  | cons y ys ih =>
    intro seen
    rw [firstOccsAux]
    by_cases hy : y ∈ seen
    · rw [if_pos hy]; exact ih _
    · rw [if_neg hy]
      refine List.Nodup.cons (fun hc => ?_) (ih _)
      exact ((firstOccsAux_mem _ _ _).mp hc).2 (List.mem_cons_self _ _)

theorem firstOccs_mem (l : List Nat) (x : Nat) : x ∈ firstOccs l ↔ x ∈ l := by
  rw [firstOccs, firstOccsAux_mem]
  simp

theorem firstOccs_nodup (l : List Nat) : (firstOccs l).Nodup :=
  firstOccsAux_nodup l []

theorem mostCommonKeys_perm (l : List Nat) :
    List.Perm (mostCommonKeys l) (firstOccs l) :=
  sortCountDesc_perm l (firstOccs l)

theorem mostCommonKeys_mem (l : List Nat) (x : Nat) :
    x ∈ mostCommonKeys l ↔ x ∈ l := by
  rw [(mostCommonKeys_perm l).mem_iff, firstOccs_mem]

theorem mostCommonKeys_nodup (l : List Nat) : (mostCommonKeys l).Nodup :=
  ((mostCommonKeys_perm l).nodup_iff).mpr (firstOccs_nodup l)

theorem mostCommonKeys_sorted (l : List Nat) :
    (mostCommonKeys l).Pairwise (fun a b => l.count b ≤ l.count a) :=
  sortCountDesc_sorted l (firstOccs l)

/-- The head of `most_common` is a mode: no key of the population counts
strictly more. -/
theorem bodySize_count_max (lines : List Line) (s : Nat)
    (hs : s ∈ lines.map (fun l => l.size)) :
    (lines.map (fun l => l.size)).count s ≤
      (lines.map (fun l => l.size)).count (bodySize lines) := by
  have hmem : s ∈ mostCommonKeys (lines.map (fun l => l.size)) :=
    (mostCommonKeys_mem _ s).mpr hs
  have hsorted := mostCommonKeys_sorted (lines.map (fun l => l.size))
  rw [bodySize]
  cases hM : mostCommonKeys (lines.map (fun l => l.size)) with
  | nil => rw [hM] at hmem; cases hmem
  | cons m ms =>
    rw [hM] at hmem hsorted
    rw [List.headD_cons]
    rcases List.mem_cons.mp hmem with rfl | hmem
    · exact Nat.le_refl _
    · exact List.rel_of_pairwise_cons hsorted hmem

theorem bodySize_mem (lines : List Line) (hne : lines ≠ []) :
    bodySize lines ∈ lines.map (fun l => l.size) := by
  have hMne : mostCommonKeys (lines.map (fun l => l.size)) ≠ [] := by
    intro h
    cases lines with
    | nil => exact hne rfl
    | cons a as =>
      have : a.size ∈ mostCommonKeys (List.map (fun l => l.size) (a :: as)) :=
        (mostCommonKeys_mem _ _).mpr (by simp)
      rw [h] at this
      cases this
  rw [bodySize]
  cases hM : mostCommonKeys (lines.map (fun l => l.size)) with
  | nil => exact absurd hM hMne
  | cons m ms =>
    rw [List.headD_cons]
    have : m ∈ mostCommonKeys (lines.map (fun l => l.size)) := by
      rw [hM]
      exact List.mem_cons_self _ _
    exact (mostCommonKeys_mem _ m).mp this

/-- Dict lookup built by `enumerate`: on a duplicate-free list the entry at
position `i` maps to `H` with the running index started at `k`. -/
theorem lvlAux_get : ∀ (hs : List Nat) (i k : Nat) (hi : i < hs.length),
    hs.Nodup → lvlAux hs (hs.get ⟨i, hi⟩) k = some ("H" ++ toString (k + i)) := by
  intro hs
  induction hs with
  | nil => intro i k hi; cases hi
  | cons h t ih =>
    intro i k hi hnd
    match i with
    | 0 => simp [lvlAux]
    | i + 1 =>
      have hget : (h :: t).get ⟨i + 1, hi⟩ = t.get ⟨i, by simpa using hi⟩ := rfl
      rw [hget, lvlAux]
      have hmem : t.get ⟨i, by simpa using hi⟩ ∈ t := t.get_mem _ _
      have hne : ¬(h = t.get ⟨i, by simpa using hi⟩) := by
        intro hc
        exact (List.nodup_cons.mp hnd).1 (hc ▸ hmem)
      rw [if_neg hne, ih i (k + 1) (by simpa using hi) (List.nodup_cons.mp hnd).2]
      have harith : k + 1 + i = k + (i + 1) := by omega
      rw [harith]

/-! ### Table-mask helpers -/

theorem tableBoxesGo_length (n : Nat) : ∀ (pages : List (Except Unit (List Rect)))
    (boxes : List (List Rect)) (i : Nat),
    (tableBoxesGo n boxes pages i).length = boxes.length := by
  intro pages
  induction pages with
  | nil => intro boxes i; rfl
  | cons pg rest ih =>
    intro boxes i
    rw [tableBoxesGo.eq_def]
    dsimp only
    by_cases hn : n ≤ i
    · rw [if_pos hn]
    · rw [if_neg hn]
      cases pg with
      | error e => rfl
      | ok tbs =>
        rw [ih]
        exact List.length_set boxes i tbs

theorem tableBoxesGo_get_of_error (n : Nat) :
    ∀ (pages : List (Except Unit (List Rect))) (boxes : List (List Rect))
    (i k j : Nat),
    pages.get? k = some (Except.error ()) →
    (∀ m, m < k → ∃ t, pages.get? m = some (Except.ok t)) →
    i + k ≤ j →
    (tableBoxesGo n boxes pages i).get? j = boxes.get? j := by
  intro pages
  induction pages with
  | nil => intro boxes i k j _ _ _; rfl
  | cons pg rest ih =>
    intro boxes i k j hk hok hij
    rw [tableBoxesGo.eq_def]
    dsimp only
    by_cases hn : n ≤ i
    · rw [if_pos hn]
    · rw [if_neg hn]
      cases k with
      | zero =>
        have hpg : pg = Except.error () := by simpa using hk
        rw [hpg]
      | succ k' =>
        obtain ⟨t, ht⟩ := hok 0 (Nat.succ_pos _)
        have hpg : pg = Except.ok t := by simpa using ht
        rw [hpg]
        rw [ih (boxes.set i t) (i + 1) k' j (by simpa using hk)
          (fun m hm => by simpa using hok (m + 1) (by omega)) (by omega)]
        have hij' : i ≠ j := by omega
        simp [List.get?_eq_getElem?, List.getElem?_set_ne hij']

/-! ### Shift and outline-shape helpers -/

theorem logical_shift_page_ge_one (outl : List Entry) :
    ∀ e ∈ logical_shift outl, 1 ≤ e.page := by
  intro e he
  rw [logical_shift] at he
  by_cases hne : outl.isEmpty
  · rw [if_pos hne] at he
    have : outl = [] := by simpa [List.isEmpty_iff] using hne
    rw [this] at he
    cases he
  · rw [if_neg hne] at he
    obtain ⟨o, _, rfl⟩ := List.mem_map.mp he
    exact le_max_left _ _

theorem logical_shift_pairwiseKeys (outl : List Entry)
    (h : outl.Pairwise (fun a b => entryKey a ≠ entryKey b)) :
    (logical_shift outl).Pairwise (fun a b => entryKey a ≠ entryKey b) := by
  rw [logical_shift]
  by_cases hne : outl.isEmpty
  · rwa [if_pos hne]
  · rw [if_neg hne]
    rw [List.pairwise_map]
    exact h

theorem detect_outline_pairwiseKeys (lines : List Line) :
    (detect_outline lines).Pairwise (fun a b => entryKey a ≠ entryKey b) := by
  rw [detect_outline]
  by_cases h1 : lines.isEmpty
  · rw [if_pos h1]; exact List.Pairwise.nil
  · rw [if_neg h1]
    by_cases h2 : (pagesInOrder lines).length ≤ 2 ∧
        lines.all (fun l => (numMatch l.text).isSome)
    · rw [if_pos h2]; exact List.Pairwise.nil
    · rw [if_neg h2]; exact dedupEntries_pairwise _ _

theorem logical_shift_eq (outl : List Entry) (hne : outl ≠ []) :
    logical_shift outl = outl.map (fun o =>
      { o with page := max 1 (o.page +
          (if minPage outl = 1 then 0 else -(minPage outl - 2))) }) := by
  rw [logical_shift, if_neg (by simpa [List.isEmpty_iff] using hne)]

theorem logicalShiftNoClamp_eq (outl : List Entry) (hne : outl ≠ []) :
    logicalShiftNoClamp outl = outl.map (fun o =>
      { o with page := o.page +
          (if minPage outl = 1 then 0 else -(minPage outl - 2)) }) := by
  rw [logicalShiftNoClamp, if_neg (by simpa [List.isEmpty_iff] using hne)]

/-! ## Claim theorems -/

/-- C1, counterexample: a 1-page document whose only cleaned lines are
"1. Scope" (size 12) and "2. Definitions" (size 24) does NOT produce an
empty outline — "1. Scope" fails the numbering pattern (its dot is not
followed by a digit and no whitespace follows the "1"), so the escape hatch
does not fire, and "2. Definitions" comes out as an H1 heading. -/
theorem c1_counterexample :
    detect_outline exC1dot = [⟨"H1", "2. Definitions", 1⟩] ∧
    detect_outline exC1dot ≠ [] := by
  exact ⟨by decide, by decide⟩

/-- C1, amended: if the cleaned lines span at most 2 distinct pages and
every cleaned line matches the leading-numbering pattern, the classifier
returns an empty outline; "1. Scope" does not match that pattern (the
pattern requires whitespace right after the digits/dot-digits group), so an
illustrating document must use matching lines such as "1 Scope" and
"2 Definitions", which indeed produce `outline = []`. -/
theorem c1_escape_hatch :
    (∀ lines : List Line, (pagesInOrder lines).length ≤ 2 →
      lines.all (fun l => (numMatch l.text).isSome) = true →
      detect_outline lines = []) ∧
    numMatch "1. Scope" = none ∧
    detect_outline exC1num = [] := by
  refine ⟨?_, by decide, by decide⟩
  intro lines h1 h2
  rw [detect_outline]
  by_cases he : lines.isEmpty
  · rw [if_pos he]
  · rw [if_neg he, if_pos ⟨h1, h2⟩]

/-- C1 witness: the escape hatch applied to the concrete matching document. -/
theorem c1_witness : detect_outline exC1num = [] :=
  c1_escape_hatch.1 exC1num (by decide) (by decide)

/-- C2, counterexample: the emitted text ":" ends with a colon and does not
start with the numbering pattern, yet its level is "H1", not "H3": the
source's colon test is the regex `.+:$`, which a lone ":" fails, so the
level falls through to the size map. -/
theorem c2_counterexample :
    detect_outline exC2colon = [⟨"H1", ":", 1⟩] ∧
    numMatch ":" = none ∧
    (":" : String).data.getLast? = some ':' ∧
    colonSearch ":" = false := by
  exact ⟨by decide, by decide, by decide, by decide⟩

/-- C2, amended: level assignment priority with the colon condition stated
as the source's regex `.+:$` (the final colon must be preceded by at least
one non-newline character; a lone ":" does not qualify): (a) numbering
pattern → `H min(dots+1, 4)` on the captured group; (b) otherwise colon
pattern → H3; (c) otherwise the size-to-level map of the line's size with
default H3.  Every emitted heading's level is computed by this chain on its
own (possibly merged) text and its opening candidate's size; a line
"1. Introduction" at the largest non-body size yields H1 (via the size map,
as it does not match the numbering pattern), "2.3 Details" yields H2 and
"2.3.4 Sub" yields H3. -/
theorem c2_level_rule :
    (∀ (hs : List Nat) (sz : Nat) (txt g : String), numMatch txt = some g →
      levelOf hs sz txt = "H" ++ toString (min (g.data.count '.' + 1) 4)) ∧
    (∀ (hs : List Nat) (sz : Nat) (txt : String), numMatch txt = none →
      colonSearch txt = true → levelOf hs sz txt = "H3") ∧
    (∀ (hs : List Nat) (sz : Nat) (txt : String), numMatch txt = none →
      colonSearch txt = false → levelOf hs sz txt = (sizeLvl hs sz).getD "H3") ∧
    (∀ (hs : List Nat) (l : List Line) (e : Entry), e ∈ buildOutline hs l →
      ∃ ln ∈ l, e.level = levelOf hs ln.size e.text ∧ e.page = (ln.page : Int)) ∧
    detect_outline exC2intro = [⟨"H1", "1. Introduction", 1⟩] ∧
    detect_outline exC2details = [⟨"H2", "2.3 Details", 1⟩] ∧
    detect_outline exC2sub = [⟨"H3", "2.3.4 Sub", 1⟩] := by
  refine ⟨?_, ?_, ?_, buildOutline_mem, by decide, by decide, by decide⟩
  · intro hs sz txt g h
    simp only [levelOf, h]
  · intro hs sz txt h hc
    simp only [levelOf, h, hc, if_true]
  · intro hs sz txt h hc
    simp only [levelOf, h, hc, if_false, Bool.false_eq_true]

/-- C2 witness: the numbering branch of the level rule at "2.3 Details". -/
theorem c2_witness : levelOf [20] 20 "2.3 Details" = "H2" := by
  rw [c2_level_rule.1 [20] 20 "2.3 Details" "2.3" (by decide)]
  decide

/-- C3: for a non-empty outline with all pages at least 1, the renumberer
leaves everything unchanged when the minimum page is 1, otherwise it adds
`-(first - 2)` to every page and clamps at 1; afterwards every page is at
least 1. -/
theorem c3_logical_shift (outl : List Entry) (hne : outl ≠ [])
    (hpos : ∀ e ∈ outl, 1 ≤ e.page) :
    (minPage outl = 1 → logical_shift outl = outl) ∧
    (minPage outl ≠ 1 → logical_shift outl = outl.map (fun o =>
      { o with page := max 1 (o.page + (-(minPage outl - 2))) })) ∧
    (∀ e ∈ logical_shift outl, 1 ≤ e.page) := by
  refine ⟨?_, ?_, logical_shift_page_ge_one outl⟩
  · intro h1
    rw [logical_shift_eq outl hne]
    have : ∀ o ∈ outl, (fun o : Entry =>
        { o with page := max 1 (o.page +
            (if minPage outl = 1 then 0 else -(minPage outl - 2))) }) o = o := by
      intro o ho
      have hp := hpos o ho
      simp only [h1, if_pos]
      have : max 1 (o.page + 0) = o.page := by
        rw [add_zero]
        exact max_eq_right hp
      rw [this]
    rw [List.map_congr_left this, List.map_id']
  · intro h1
    rw [logical_shift_eq outl hne]
    apply List.map_congr_left
    intro o _
    rw [if_neg h1]

/-- C3 witness: shifting pages {3, 5} (first = 3) by -(3-2) = -1. -/
theorem c3_witness : logical_shift exShiftTwo = [⟨"H1", "A", 2⟩, ⟨"H2", "B", 4⟩] := by
  rw [(c3_logical_shift exShiftTwo (by decide) (by decide)).2.1 (by decide)]
  decide

/-- C4: the merge step with one look-ahead: when the next candidate is on
the same page and has at most 2 words, its (stripped) text is appended to
the current candidate's text, the pair produces a single entry carrying the
current candidate's page and the level computed on the merged text, and the
scan resumes after both (never a chained multi-merge); candidates "Chapter"
and "One" (both page 1, heading size) produce the single entry
`{level := H1, text := "Chapter One", page := 1}`. -/
theorem c4_merge_rule :
    (∀ (hs : List Nat) (c1 c2 : Line) (rest : List Line),
      c2.page = c1.page → (pySplit c2.text).length ≤ 2 →
      pyStrip c1.text = c1.text → pyStrip c2.text = c2.text →
      buildOutline hs (c1 :: c2 :: rest) =
        ⟨levelOf hs c1.size (c1.text ++ " " ++ c2.text),
          c1.text ++ " " ++ c2.text, (c1.page : Int)⟩ :: buildOutline hs rest) ∧
    detect_outline exC4 = [⟨"H1", "Chapter One", 1⟩] := by
  refine ⟨?_, by decide⟩
  intro hs c1 c2 rest hpage hwords h1 h2
  rw [buildOutline, if_pos ⟨hpage, hwords⟩, h1, h2]

/-- C4 witness: the merge equation at the concrete "Chapter"/"One" pair. -/
theorem c4_witness :
    buildOutline [20] [⟨"Chapter", 20, 1, zeroRect⟩, ⟨"One", 20, 1, zeroRect⟩] =
      [⟨"H1", "Chapter One", 1⟩] := by
  rw [c4_merge_rule.1 [20] ⟨"Chapter", 20, 1, zeroRect⟩ ⟨"One", 20, 1, zeroRect⟩ []
    rfl (by decide) (by decide) (by decide)]
  decide

/-- C5: in every final output (outline after renumbering) no two entries
share the `(lowercased text, level)` key; the dedup pass equals the
spec-side "keep the first occurrence of each key" filter, is a subsequence
of the built entry list (original order, no re-sorting), and keeps a
representative of every key. -/
theorem c5_dedup_invariant :
    (∀ lines : List Line, (logical_shift (detect_outline lines)).Pairwise
      (fun a b => entryKey a ≠ entryKey b)) ∧
    (∀ l : List Entry, dedupEntries l [] = specDedup l) ∧
    (∀ l : List Entry, (dedupEntries l []).Sublist l) ∧
    (∀ (l : List Entry) (e : Entry), e ∈ l →
      ∃ e' ∈ dedupEntries l [], entryKey e' = entryKey e) := by
  refine ⟨?_, ?_, fun l => dedupEntries_sublist l [],
    fun l e he => dedupEntries_covers l [] e he (by simp)⟩
  · intro lines
    exact logical_shift_pairwiseKeys _ (detect_outline_pairwiseKeys lines)
  · intro l
    have hpred : (fun (e : Entry) =>
        !(decide (entryKey e ∈ ([] : List (String × String))))) = fun _ => true := by
      funext e
      simp
    rw [dedupEntries_eq_specDedup l [], hpred, List.filter_true]

/-- C5 witness: the seen-set dedup loop and the spec-side first-occurrence
filter agree on a list with one duplicated key. -/
theorem c5_witness : dedupEntries exDedup [] = specDedup exDedup :=
  c5_dedup_invariant.2.1 exDedup

/-- C6: a line whose bounding box intersects a table rectangle of its page
never survives the cleaner, so (the outline being computed from the
cleaner's output only) it contributes nothing to the outline; concretely,
the size-30 line "Table Header" lying inside the supplied table rectangle is
dropped and the outline holds only "Real Heading". -/
theorem c6_table_lines_discarded :
    (∀ (lines : List Line) (tables : List (List Rect)) (ln : Line),
      ln ∈ lines →
      (∃ tb ∈ tables.getD (ln.page - 1) [], intersects ln.bbox tb = true) →
      ln ∉ clean lines tables) ∧
    exTable ∈ exC6lines ∧
    clean exC6lines exC6tables = [exB1, exB2, exHeading] ∧
    detect_outline (clean exC6lines exC6tables) = [⟨"H1", "Real Heading", 1⟩] := by
  refine ⟨?_, by decide, by decide, by decide⟩
  rintro lines tables ln _ ⟨tb, htb, hint⟩ hcontra
  obtain ⟨_, hkeep⟩ := clean_mem lines tables ln hcontra
  rw [keepBase] at hkeep
  simp only [Bool.and_eq_true, Bool.not_eq_true'] at hkeep
  have hany := hkeep.2
  rw [List.any_eq_false] at hany
  exact absurd hint (by simpa using hany tb htb)

/-- C6 witness: the general discard statement applied to the concrete
table-covered line. -/
theorem c6_witness : exTable ∉ clean exC6lines exC6tables :=
  c6_table_lines_discarded.1 exC6lines exC6tables exTable (by decide)
    ⟨exTableRect, by decide, by decide⟩

/-- C7: the body size is a most frequent size of the cleaned lines; the
heading sizes are at most 4, duplicate-free, each at least 1.15 times the
body size (integer form `23*body ≤ 20*s`) and present in the document,
listed in descending size order; the size-to-level dict maps the i-th
largest to `H(i+1)` (so the largest selected size is H1) regardless of
frequency rank; and the selection is by descending frequency: any
qualifying size left out counts no more than every selected one. -/
theorem c7_sizes (lines : List Line) (hne : lines ≠ []) :
    bodySize lines ∈ lines.map (fun l => l.size) ∧
    (∀ s ∈ lines.map (fun l => l.size),
      (lines.map (fun l => l.size)).count s ≤
        (lines.map (fun l => l.size)).count (bodySize lines)) ∧
    (headSizes lines).length ≤ 4 ∧
    (headSizes lines).Nodup ∧
    (∀ s ∈ headSizes lines,
      23 * bodySize lines ≤ 20 * s ∧ s ∈ lines.map (fun l => l.size)) ∧
    (headSizes lines).Pairwise (fun a b => b ≤ a) ∧
    (∀ (i : Nat) (hi : i < (headSizes lines).length),
      sizeLvl (headSizes lines) ((headSizes lines).get ⟨i, hi⟩) =
        some ("H" ++ toString (i + 1))) ∧
    (∀ s ∈ qualSizes lines, s ∉ headSizes lines →
      ∀ t ∈ headSizes lines, (qualSizes lines).count s ≤ (qualSizes lines).count t) := by
  have hperm := sortValDesc_perm ((mostCommonKeys (qualSizes lines)).take 4)
  have hnodupT : ((mostCommonKeys (qualSizes lines)).take 4).Nodup :=
    (mostCommonKeys_nodup (qualSizes lines)).sublist (List.take_sublist _ _)
  have hnodupH : (headSizes lines).Nodup := hperm.nodup_iff.mpr hnodupT
  have hqual : ∀ s ∈ qualSizes lines,
      23 * bodySize lines ≤ 20 * s ∧ s ∈ lines.map (fun l => l.size) := by
    intro s hs
    rw [qualSizes] at hs
    obtain ⟨l', hl', rfl⟩ := List.mem_map.mp hs
    have hm := List.mem_filter.mp hl'
    exact ⟨by simpa using hm.2, List.mem_map.mpr ⟨l', hm.1, rfl⟩⟩
  have hmemH : ∀ s ∈ headSizes lines, s ∈ qualSizes lines := by
    intro s hs
    have h1 : s ∈ (mostCommonKeys (qualSizes lines)).take 4 := hperm.mem_iff.mp hs
    exact (mostCommonKeys_mem _ s).mp (List.take_subset _ _ h1)
  refine ⟨bodySize_mem lines hne, fun s hs => bodySize_count_max lines s hs,
    ?_, hnodupH, fun s hs => hqual s (hmemH s hs), sortValDesc_sorted _, ?_, ?_⟩
  · rw [headSizes, hperm.length_eq]
    exact List.length_take_le _ _
  · intro i hi
    rw [sizeLvl, lvlAux_get (headSizes lines) i 1 hi hnodupH, Nat.add_comm 1 i]
  · intro s hsq hsnot t ht
    have hsM : s ∈ mostCommonKeys (qualSizes lines) := (mostCommonKeys_mem _ s).mpr hsq
    have htT : t ∈ (mostCommonKeys (qualSizes lines)).take 4 := hperm.mem_iff.mp ht
    have hsnotT : s ∉ (mostCommonKeys (qualSizes lines)).take 4 := fun hc =>
      hsnot (hperm.mem_iff.mpr hc)
    have hsApp : s ∈ (mostCommonKeys (qualSizes lines)).take 4 ++
        (mostCommonKeys (qualSizes lines)).drop 4 := by
      rw [List.take_append_drop]
      exact hsM
    have hsD : s ∈ (mostCommonKeys (qualSizes lines)).drop 4 := by
      rcases List.mem_append.mp hsApp with h | h
      · exact absurd h hsnotT
      · exact h
    have hsort : List.Pairwise
        (fun a b => (qualSizes lines).count b ≤ (qualSizes lines).count a)
        ((mostCommonKeys (qualSizes lines)).take 4 ++
          (mostCommonKeys (qualSizes lines)).drop 4) := by
      rw [List.take_append_drop]
      exact mostCommonKeys_sorted (qualSizes lines)
    exact (List.pairwise_append.mp hsort).2.2 t htT s hsD

/-- C7 witness: the size machinery at the concrete three-line document
(body 12 twice, heading 20 once). -/
theorem c7_witness : bodySize exC2details ∈ exC2details.map (fun l => l.size) :=
  (c7_sizes exC2details (by decide)).1

/-- C8, counterexample: a provider that finds a table on page 1 and then
fails on page 2 makes `table_bboxes` return the page-1 table, not an empty
list for every page — the failure is swallowed, but the pages already
processed keep their boxes. -/
theorem c8_counterexample :
    table_bboxes (Except.ok [Except.ok [exTableRect], Except.error ()]) 2 =
      [[exTableRect], []] ∧
    table_bboxes (Except.ok [Except.ok [exTableRect], Except.error ()]) 2 ≠
      [[], []] := by
  exact ⟨by decide, by decide⟩

/-- C8, amended: a provider failure never propagates — `table_bboxes`
always returns an `n_pages`-long list; a failure on opening (before any
page is processed) yields an empty list for every page; a failure while
processing a page leaves that page and every later page with an empty
list (pages completed before the failure keep their results, as the
counterexample shows). -/
theorem c8_masks :
    (∀ n : Nat, table_bboxes (Except.error ()) n = List.replicate n []) ∧
    (∀ (provider : Except Unit (List (Except Unit (List Rect)))) (n : Nat),
      (table_bboxes provider n).length = n) ∧
    (∀ (pages : List (Except Unit (List Rect))) (n k j : Nat),
      pages.get? k = some (Except.error ()) →
      (∀ m, m < k → ∃ t, pages.get? m = some (Except.ok t)) →
      k ≤ j → j < n →
      (table_bboxes (Except.ok pages) n).get? j = some []) := by
  refine ⟨fun n => rfl, ?_, ?_⟩
  · intro provider n
    cases provider with
    | error e =>
      show (List.replicate n ([] : List Rect)).length = n
      exact List.length_replicate _ _
    | ok pages =>
      show (tableBoxesGo n (List.replicate n []) pages 0).length = n
      rw [tableBoxesGo_length]
      exact List.length_replicate _ _
  · intro pages n k j hk hok hkj hjn
    show (tableBoxesGo n (List.replicate n []) pages 0).get? j = some []
    rw [tableBoxesGo_get_of_error n pages _ 0 k j hk hok (by omega)]
    simp [List.get?_eq_getElem?, List.getElem?_replicate, hjn]

/-- C8 witness: the amended statement at the concrete failing provider:
page 2 (index 1) of 3 is empty after the page-2 failure. -/
theorem c8_witness :
    (table_bboxes (Except.ok [Except.ok [exTableRect], Except.error ()]) 3).get? 1 =
      some [] := by
  refine c8_masks.2.2 [Except.ok [exTableRect], Except.error ()] 3 1 1
    rfl ?_ (by omega) (by omega)
  intro m hm
  have hm0 : m = 0 := by omega
  subst hm0
  exact ⟨[exTableRect], rfl⟩

/-- C9 (implicit): the cleaner measures a page's height as the largest
bbox bottom among the page's lines, and its footer band drops every line
with bottom above 0.9 of that height — so whenever the maximum bottom is
positive, any line attaining it is unconditionally discarded. -/
theorem c9_bottom_line_discarded :
    ∀ (lines : List Line) (tables : List (List Rect)) (ln : Line),
      ln ∈ lines →
      ln.bbox.y1 = maxBottom (pageLines lines ln.page) →
      0 < maxBottom (pageLines lines ln.page) →
      ln ∉ clean lines tables := by
  intro lines tables ln _ hmax hpos hcontra
  obtain ⟨_, hkeep⟩ := clean_mem lines tables ln hcontra
  rw [keepBase] at hkeep
  simp only [Bool.and_eq_true, Bool.not_eq_true', Bool.or_eq_false_iff] at hkeep
  have hfoot : ratScaledLt 9 10 (maxBottom (pageLines lines ln.page)) ln.bbox.y1
      = false := hkeep.1.2.2
  rw [hmax] at hfoot
  have hlt : (9 : ℚ) * maxBottom (pageLines lines ln.page) <
      (10 : ℚ) * maxBottom (pageLines lines ln.page) := by
    have h9 : ((9 : Nat) : ℚ) = (9 : ℚ) := by norm_num
    have h10 : ((10 : Nat) : ℚ) = (10 : ℚ) := by norm_num
    nlinarith [hpos]
  have := (ratScaledLt_iff 9 10 (maxBottom (pageLines lines ln.page))
    (maxBottom (pageLines lines ln.page))).mpr (by push_cast; linarith)
  rw [hfoot] at this
  cases this

/-- C9 witness: a one-line page: the single line attains the maximum bottom
(20 > 0) and is discarded, leaving the cleaner's output empty. -/
theorem c9_witness : exW ∉ clean [exW] [] :=
  c9_bottom_line_discarded [exW] [] exW (by decide) (by decide) (by decide)

/-- C10 (implicit): on outlines whose pages are all at least 1 — the only
ones the pipeline produces — the `max 1` clamp of the renumberer never
changes a value: with a shift (`first ≥ 2`) every shifted page is
`page - first + 2 ≥ 2`, and with no shift every page is already at least 1,
so the clamped and unclamped renumberers agree extensionally. -/
theorem c10_clamp_redundant (outl : List Entry)
    (hpos : ∀ e ∈ outl, 1 ≤ e.page) :
    logical_shift outl = logicalShiftNoClamp outl := by
  by_cases hne : outl = []
  · subst hne
    rfl
  · have h1 := one_le_minPage outl hne hpos
    rw [logical_shift_eq outl hne, logicalShiftNoClamp_eq outl hne]
    apply List.map_congr_left
    intro o ho
    have hle := minPage_le outl o ho
    have hp := hpos o ho
    by_cases hf : minPage outl = 1
    · rw [if_pos hf]
      have : max 1 (o.page + 0) = o.page + 0 := max_eq_right (by omega)
      rw [this]
    · rw [if_neg hf]
      have : max 1 (o.page + -(minPage outl - 2)) = o.page + -(minPage outl - 2) :=
        max_eq_right (by omega)
      rw [this]

/-- C10 witness: clamp-free and clamped renumbering agree on a concrete
outline with first page 3. -/
theorem c10_witness : logical_shift exShiftOne = logicalShiftNoClamp exShiftOne :=
  c10_clamp_redundant exShiftOne (by decide)

end PdfHeadings
